import Mathlib

/-!
Verification of the arkencrab preference-reconciliation engine
(`src/main.rs`) against its natural-language specification.

The Rust source is shallowly embedded: documents are `String`s (lists of
characters), the two compiled regular expressions are modelled as
executable scanners over `List Char`, the filesystem is a map from path
to optional content, and the fallible HTTP fetch is an `Option` parameter.
Regex character classes `\s` and `\d` are modelled by their ASCII meaning
(the only characters the spec and the template format use).
-/

namespace Arkencrab

/-- ASCII model of the regex class `\s` (space, tab, newline, carriage
return, vertical tab, form feed). -/
def isWsChar (c : Char) : Bool :=
  c = ' ' || c = '\t' || c = '\n' || c = '\r' || c = '\x0b' || c = '\x0c'

/-- Boolean test that `nd` occurs at the very start of `hay`. -/
def isPre : List Char → List Char → Bool
  | [], _ => true
  | _ :: _, [] => false
  | a :: as, b :: bs => a = b && isPre as bs

/-- Boolean substring test, the model of Rust `str::contains` with a
literal pattern: `nd` occurs contiguously somewhere in the haystack. -/
def containsSub (nd : List Char) : List Char → Bool
  | [] => nd.isEmpty
  | c :: t => isPre nd (c :: t) || containsSub nd t

theorem isPre_iff (nd h : List Char) : isPre nd h = true ↔ ∃ r, h = nd ++ r := by
  induction nd generalizing h with
  | nil => simp [isPre]
  | cons a as ih =>
    cases h with
    | nil => simp [isPre]
    | cons b bs =>
      simp only [isPre, Bool.and_eq_true, decide_eq_true_eq, ih, List.cons_append,
        List.cons.injEq]
      constructor
      · rintro ⟨rfl, r, rfl⟩; exact ⟨r, rfl, rfl⟩
      · rintro ⟨r, rfl, rfl⟩; exact ⟨rfl, r, rfl⟩

theorem containsSub_iff (nd h : List Char) :
    containsSub nd h = true ↔ ∃ a b, h = a ++ nd ++ b := by
  induction h with
  | nil =>
    simp only [containsSub, List.isEmpty_iff]
    constructor
    · rintro rfl; exact ⟨[], [], rfl⟩
    · rintro ⟨a, b, hab⟩
      rcases List.append_eq_nil.mp (List.append_eq_nil.mp hab.symm).1 with ⟨-, h2⟩
      exact h2
  | cons c t ih =>
    simp only [containsSub, Bool.or_eq_true, isPre_iff, ih]
    constructor
    · rintro (⟨r, hr⟩ | ⟨a, b, rfl⟩)
      · exact ⟨[], r, by simpa using hr⟩
      · exact ⟨c :: a, b, rfl⟩
    · rintro ⟨a, b, hab⟩
      cases a with
      | nil => exact Or.inl ⟨b, by simpa using hab⟩
      | cons x xs =>
        simp only [List.cons_append, List.cons.injEq] at hab
        exact Or.inr ⟨xs, b, hab.2⟩

theorem isPre_append (nd a b : List Char) (h : isPre nd a = true) :
    isPre nd (a ++ b) = true := by
  rcases (isPre_iff nd a).mp h with ⟨r, rfl⟩
  exact (isPre_iff nd _).mpr ⟨r ++ b, by simp⟩

theorem containsSub_append_right (nd a b : List Char) (h : containsSub nd a = true) :
    containsSub nd (a ++ b) = true := by
  rcases (containsSub_iff nd a).mp h with ⟨x, y, rfl⟩
  exact (containsSub_iff nd _).mpr ⟨x, y ++ b, by simp⟩

/-! ## ESR rewrite (Update arm, `main.rs` line 253)

`new_user = new_user.replace("/* ESR", "// ESR");` — Rust `str::replace`
substitutes every non-overlapping occurrence, scanning left to right.
The recursion consumes at least one character per step, so character
count is enough fuel. -/

/-- The literal pattern `"/* ESR"` of the ESR-gated block marker. -/
def patESR : List Char := ['/', '*', ' ', 'E', 'S', 'R']

/-- The literal replacement `"// ESR"`. -/
def repESR : List Char := ['/', '/', ' ', 'E', 'S', 'R']

/-- Fueled model of `str::replace("/* ESR", "// ESR")` on character
lists: leftmost-first, non-overlapping, global. -/
def replF : Nat → List Char → List Char
  | 0, s => s
  | _ + 1, [] => []
  | f + 1, c :: t =>
    if isPre patESR (c :: t) = true then repESR ++ replF f (t.drop 5)
    else c :: replF f t

/-- Model of line 253: `new_user.replace("/* ESR", "// ESR")`. -/
def replaceESR (s : String) : String :=
  String.mk (replF s.data.length s.data)

/-- Model of `str::contains` on `String`s. -/
def strContains (hay nd : String) : Bool := containsSub nd.data hay.data

theorem replF_zero (s : List Char) : replF 0 s = s := rfl

/-- If no character of `w` is `'/'` then a prefix of the rewritten
document is already a prefix of the source document: the rewriting only
ever emits fresh characters that begin with `'/'`. -/
theorem isPre_replF (f : Nat) (t w : List Char) (hw : ∀ c ∈ w, c ≠ '/')
    (h : isPre w (replF f t) = true) : isPre w t = true := by
  induction f generalizing t w with
  | zero => simpa [replF] using h
  | succ f ih =>
    cases t with
    | nil => simpa [replF] using h
    | cons c t' =>
      by_cases hp : isPre patESR (c :: t') = true
      · cases w with
        | nil => simp [isPre]
        | cons wc wt =>
          rw [replF, if_pos hp] at h
          simp only [repESR, List.cons_append, isPre, Bool.and_eq_true,
            decide_eq_true_eq] at h
          exact absurd h.1 (hw wc (by simp))
      · rw [replF, if_neg hp] at h
        cases w with
        | nil => simp [isPre]
        | cons wc wt =>
          simp only [isPre, Bool.and_eq_true, decide_eq_true_eq] at h ⊢
          exact ⟨h.1, ih t' wt (fun c hc => hw c (by simp [hc])) h.2⟩

theorem containsSub_repESR_append (x : List Char) :
    containsSub patESR (repESR ++ x) = containsSub patESR x := by
  simp [repESR, List.cons_append, List.nil_append, containsSub, patESR, isPre]

/-- After a full rewrite pass the disabled marker `"/* ESR"` no longer
occurs anywhere in the document. -/
theorem replF_no_pat (f : Nat) (t : List Char) (hf : t.length ≤ f) :
    containsSub patESR (replF f t) = false := by
  induction f generalizing t with
  | zero =>
    have : t = [] := List.length_eq_zero.mp (Nat.le_zero.mp hf)
    subst this
    simp [replF, containsSub, patESR]
  | succ f ih =>
    cases t with
    | nil => simp [replF, containsSub, patESR]
    | cons c t' =>
      by_cases hp : isPre patESR (c :: t') = true
      · rw [replF, if_pos hp, containsSub_repESR_append]
        refine ih _ ?_
        rw [List.length_drop]
        simp only [List.length_cons] at hf
        omega
      · rw [replF, if_neg hp]
        rw [containsSub]
        rw [Bool.or_eq_false_iff]
        simp only [List.length_cons] at hf
        refine ⟨?_, ih t' (by omega)⟩
        rw [Bool.eq_false_iff]
        intro hpre
        have hpre' : '/' = c ∧ isPre ['*', ' ', 'E', 'S', 'R'] (replF f t') = true := by
          simpa [patESR, isPre, Bool.and_eq_true, decide_eq_true_eq] using hpre
        have htail := isPre_replF f t' ['*', ' ', 'E', 'S', 'R'] (by decide) hpre'.2
        apply hp
        simpa [patESR, isPre, Bool.and_eq_true, decide_eq_true_eq, ← hpre'.1] using htail

/-- A document with no occurrence of the disabled marker is left
untouched by the rewrite. -/
theorem replF_id_of_no_pat (f : Nat) (t : List Char)
    (h : containsSub patESR t = false) : replF f t = t := by
  induction f generalizing t with
  | zero => rfl
  | succ f ih =>
    cases t with
    | nil => rfl
    | cons c t' =>
      rw [containsSub, Bool.or_eq_false_iff] at h
      rw [replF, if_neg (by simp [h.1]), ih t' h.2]

/-- The ESR rewrite of an already-rewritten document is a no-op. -/
theorem replaceESR_idem (t : String) : replaceESR (replaceESR t) = replaceESR t := by
  unfold replaceESR
  congr 1
  exact replF_id_of_no_pat _ _ (replF_no_pat t.data.length t.data le_rfl)

/-- No occurrence of the disabled marker survives the rewrite. -/
theorem replaceESR_no_pat (t : String) : strContains (replaceESR t) ("/* ESR") = false := by
  have hd : ("/* ESR" : String).data = patESR := by decide
  unfold strContains replaceESR
  rw [hd]
  exact replF_no_pat t.data.length t.data le_rfl

/-! ## Version extractor (`find_version`, `main.rs` lines 133-138)

`REGEX_VERSION.captures(user_js)` searches for the leftmost match of the
multi-line regex `^\*\s*version:\s*(\d+)`; `^` matches at offset zero and
after every newline, `\s*` is greedy (but is followed by a non-whitespace
literal, so only its maximal run can continue the match) and the capture
`(\d+)` is the maximal digit run. -/

/-- The literal `"version:"` of the version-comment pattern. -/
def verLit : List Char := ['v', 'e', 'r', 's', 'i', 'o', 'n', ':']

/-- Removal of an exact literal from the front of a character list. -/
def stripLit : List Char → List Char → Option (List Char)
  | [], s => some s
  | _ :: _, [] => none
  | c :: p, d :: s => if c = d then stripLit p s else none

/-- Attempt the body of `^\*\s*version:\s*(\d+)` at one position,
returning the captured digit run. -/
def matchVersionAt : List Char → Option (List Char)
  | [] => none
  | c :: r =>
    if c = '*' then
      match stripLit verLit (r.dropWhile isWsChar) with
      | some r2 =>
        let dv := (r2.dropWhile isWsChar).takeWhile Char.isDigit
        if dv.isEmpty then none else some dv
      | none => none
    else none

/-- Leftmost multi-line search: try the pattern at the start (when the
position opens a line) and advance one character at a time. -/
def scanVersion : List Char → Bool → Option (List Char)
  | [], _ => none
  | c :: t, atStart =>
    if atStart then
      match matchVersionAt (c :: t) with
      | some v => some v
      | none => scanVersion t (c == '\n')
    else scanVersion t (c == '\n')

/-- Model of `find_version` (`main.rs` lines 133-138): first capture of
the version pattern, else the literal `"unknown"`. -/
def find_version (user_js : String) : String :=
  match scanVersion user_js.data true with
  | some v => String.mk v
  | none => "unknown"

/-- Declarative reading of one match of `\*\s*version:\s*(\d+)` at the
head of `s` with capture `v` (`v` maximal: no digit follows it). -/
def VersionHere (s v : List Char) : Prop :=
  ∃ ws1 ws2 rest,
    s = '*' :: (ws1 ++ (verLit ++ (ws2 ++ (v ++ rest))))
    ∧ ws1.all isWsChar = true ∧ ws2.all isWsChar = true
    ∧ v ≠ [] ∧ v.all Char.isDigit = true
    ∧ rest.takeWhile Char.isDigit = []

/-- Position `p` of `s` opens a line: it is the very start (when the
scan starts on a line boundary) or it follows a newline. -/
def LineStartPos (s : List Char) (atStart : Bool) (p : Nat) : Prop :=
  (p = 0 ∧ atStart = true) ∨ (1 ≤ p ∧ s[p - 1]? = some '\n')

section ScanAux

variable {α : Type} (q : α → Bool)

theorem twAll (l : List α) : (l.takeWhile q).all q = true := by
  induction l with
  | nil => rfl
  | cons a l ih =>
    by_cases h : q a = true
    · simp [List.takeWhile_cons, h, ih]
    · simp [List.takeWhile_cons, h]

theorem dwAppendAll (a b : List α) (h : a.all q = true) :
    (a ++ b).dropWhile q = b.dropWhile q := by
  induction a with
  | nil => rfl
  | cons x xs ih =>
    simp only [List.all_cons, Bool.and_eq_true] at h
    simpa [List.dropWhile_cons, h.1] using ih h.2

theorem twAppendAll (v r : List α) (h : v.all q = true) :
    (v ++ r).takeWhile q = v ++ r.takeWhile q := by
  induction v with
  | nil => rfl
  | cons x xs ih =>
    simp only [List.all_cons, Bool.and_eq_true] at h
    simp [List.takeWhile_cons, h.1, ih h.2]

theorem twDwNil (l : List α) : (l.dropWhile q).takeWhile q = [] := by
  induction l with
  | nil => rfl
  | cons a l ih =>
    by_cases h : q a = true
    · simpa [List.dropWhile_cons, h] using ih
    · simp [List.dropWhile_cons, List.takeWhile_cons, h]

end ScanAux

theorem stripLit_iff (p s r : List Char) : stripLit p s = some r ↔ s = p ++ r := by
  induction p generalizing s with
  | nil => simp [stripLit, eq_comm]
  | cons c p ih =>
    cases s with
    | nil => simp [stripLit]
    | cons d t =>
      by_cases hcd : c = d
      · subst hcd
        simp [stripLit, ih]
      · simp [stripLit, hcd, Ne.symm hcd]

theorem digit_not_ws (c : Char) (h : c.isDigit = true) : isWsChar c = false := by
  rw [Bool.eq_false_iff]
  intro hw
  simp only [isWsChar, Bool.or_eq_true, decide_eq_true_eq] at hw
  rcases hw with ((((rfl | rfl) | rfl) | rfl) | rfl) | rfl <;> exact absurd h (by decide)

theorem matchVersionAt_iff (s v : List Char) :
    matchVersionAt s = some v ↔ VersionHere s v := by
  constructor
  · intro h
    cases s with
    | nil => exact absurd h (by simp [matchVersionAt])
    | cons c r =>
      by_cases hc : c = '*'
      · subst hc
        rw [matchVersionAt, if_pos rfl] at h
        split at h
        · rename_i r2 hsl
          simp only at h
          set v0 := (r2.dropWhile isWsChar).takeWhile Char.isDigit with hv0
          by_cases he : v0.isEmpty = true
          · rw [if_pos he] at h; exact absurd h (by simp)
          · rw [if_neg he] at h
            have hv : v = v0 := (Option.some.inj h).symm
            subst hv
            refine ⟨r.takeWhile isWsChar, r2.takeWhile isWsChar,
              (r2.dropWhile isWsChar).dropWhile Char.isDigit, ?_, twAll _ _,
              twAll _ _, by simpa [List.isEmpty_iff] using he, ?_, twDwNil _ _⟩
            · have h1 : r.takeWhile isWsChar ++ r.dropWhile isWsChar = r :=
                List.takeWhile_append_dropWhile isWsChar r
              have h2 : r.dropWhile isWsChar = verLit ++ r2 :=
                (stripLit_iff _ _ _).mp hsl
              have h3 : r2.takeWhile isWsChar ++ r2.dropWhile isWsChar = r2 :=
                List.takeWhile_append_dropWhile isWsChar r2
              have h4 : v0 ++ (r2.dropWhile isWsChar).dropWhile Char.isDigit
                  = r2.dropWhile isWsChar :=
                List.takeWhile_append_dropWhile Char.isDigit (r2.dropWhile isWsChar)
              refine congrArg (fun l => '*' :: l) ?_
              conv_lhs => rw [← h1, h2]
              conv_rhs => rw [h4, h3]
            · rw [hv0]
              exact twAll _ _
        · rename_i hsl
          exact absurd h (by simp)
      · rw [matchVersionAt, if_neg hc] at h
        exact absurd h (by simp)
  · rintro ⟨ws1, ws2, rest, rfl, hws1, hws2, hvne, hvdig, hrest⟩
    rw [matchVersionAt, if_pos rfl]
    have hdw1 : (ws1 ++ (verLit ++ (ws2 ++ (v ++ rest)))).dropWhile isWsChar
        = verLit ++ (ws2 ++ (v ++ rest)) := by
      rw [dwAppendAll _ _ _ hws1]
      simp [verLit, List.dropWhile_cons, isWsChar]
    rw [hdw1, (stripLit_iff verLit _ _).mpr rfl]
    simp only
    cases v with
    | nil => exact absurd rfl hvne
    | cons vc vt =>
      simp only [List.all_cons, Bool.and_eq_true] at hvdig
      have hdw2 : (ws2 ++ (vc :: vt ++ rest)).dropWhile isWsChar
          = vc :: vt ++ rest := by
        rw [dwAppendAll _ _ _ hws2]
        simp [List.dropWhile_cons, digit_not_ws vc hvdig.1]
      rw [hdw2]
      have htw : (vc :: vt ++ rest).takeWhile Char.isDigit = vc :: vt := by
        have := twAppendAll Char.isDigit (vc :: vt) rest
          (by simp [hvdig.1, hvdig.2])
        rw [List.cons_append] at this ⊢
        rw [this, hrest, List.append_nil]
      rw [htw]
      simp

theorem versionHere_nil (v : List Char) : ¬ VersionHere [] v := by
  rintro ⟨ws1, ws2, rest, h, -⟩
  exact List.cons_ne_nil _ _ h.symm

theorem lineStart_shift (c : Char) (t : List Char) (a : Bool) (p : Nat) :
    LineStartPos (c :: t) a (p + 1) ↔ LineStartPos t (c == '\n') p := by
  cases p with
  | zero =>
    constructor
    · rintro (⟨h, -⟩ | ⟨-, h⟩)
      · exact absurd h (by omega)
      · have hc : c = '\n' := by simpa using h
        exact Or.inl ⟨rfl, by simp [hc]⟩
    · rintro (⟨-, h⟩ | ⟨h, -⟩)
      · have hc : c = '\n' := by simpa using h
        exact Or.inr ⟨le_rfl, by simp [hc]⟩
      · exact absurd h (by omega)
  | succ q =>
    constructor
    · rintro (⟨h, -⟩ | ⟨-, h⟩)
      · exact absurd h (by omega)
      · refine Or.inr ⟨by omega, ?_⟩
        simpa using h
    · rintro (⟨h, -⟩ | ⟨-, h⟩)
      · exact absurd h (by omega)
      · refine Or.inr ⟨by omega, ?_⟩
        simpa using h

theorem lineStart_zero_false (c : Char) (t : List Char) :
    ¬ LineStartPos (c :: t) false 0 := by
  rintro (⟨-, h⟩ | ⟨h, -⟩)
  · exact Bool.false_ne_true h
  · exact absurd h (by omega)

/-- The scan returns `none` exactly when no line-start position of the
document carries a version match. -/
theorem scanVersion_none_iff (s : List Char) (a : Bool) :
    scanVersion s a = none ↔
      ∀ p v, LineStartPos s a p → ¬ VersionHere (s.drop p) v := by
  induction s generalizing a with
  | nil =>
    simp only [scanVersion, true_iff]
    intro p v _
    simpa using versionHere_nil v
  | cons c t ih =>
    cases a with
    | false =>
      rw [scanVersion]
      simp only [Bool.false_eq_true, if_false, ih]
      constructor
      · intro h p v hls
        cases p with
        | zero => exact absurd hls (lineStart_zero_false c t)
        | succ q =>
          rw [List.drop_succ_cons]
          exact h q v ((lineStart_shift c t false q).mp hls)
      · intro h p v hls
        have := h (p + 1) v ((lineStart_shift c t false p).mpr hls)
        simpa using this
    | true =>
      rw [scanVersion]
      simp only [if_true]
      cases hm : matchVersionAt (c :: t) with
      | some v0 =>
        simp only [reduceCtorEq, false_iff, not_forall]
        refine ⟨0, v0, Or.inl ⟨rfl, rfl⟩, ?_⟩
        simp only [List.drop_zero, not_not]
        exact (matchVersionAt_iff _ _).mp hm
      | none =>
        rw [ih]
        constructor
        · intro h p v hls
          cases p with
          | zero =>
            rw [List.drop_zero]
            intro hv
            exact absurd ((matchVersionAt_iff _ _).mpr hv) (by simp [hm])
          | succ q =>
            rw [List.drop_succ_cons]
            exact h q v ((lineStart_shift c t true q).mp hls)
        · intro h p v hls
          have := h (p + 1) v ((lineStart_shift c t true p).mpr hls)
          simpa using this

/-- A successful scan returns the capture of the leftmost matching
line-start position. -/
theorem scanVersion_some (s : List Char) (a : Bool) (v : List Char)
    (h : scanVersion s a = some v) :
    ∃ p, LineStartPos s a p ∧ VersionHere (s.drop p) v ∧
      ∀ q w, q < p → LineStartPos s a q → ¬ VersionHere (s.drop q) w := by
  induction s generalizing a with
  | nil => exact absurd h (by simp [scanVersion])
  | cons c t ih =>
    cases a with
    | false =>
      rw [scanVersion] at h
      simp only [Bool.false_eq_true, if_false] at h
      obtain ⟨p, h1, h2, h3⟩ := ih _ h
      refine ⟨p + 1, (lineStart_shift c t false p).mpr h1, by simpa using h2, ?_⟩
      intro q w hq hls
      cases q with
      | zero => exact absurd hls (lineStart_zero_false c t)
      | succ r =>
        rw [List.drop_succ_cons]
        exact h3 r w (by omega) ((lineStart_shift c t false r).mp hls)
    | true =>
      rw [scanVersion] at h
      simp only [if_true] at h
      cases hm : matchVersionAt (c :: t) with
      | some v0 =>
        rw [hm] at h
        have hv : v0 = v := Option.some.inj h
        subst hv
        exact ⟨0, Or.inl ⟨rfl, rfl⟩, by simpa using (matchVersionAt_iff _ _).mp hm,
          fun q w hq _ => absurd hq (Nat.not_lt_zero q)⟩
      | none =>
        rw [hm] at h
        obtain ⟨p, h1, h2, h3⟩ := ih _ h
        refine ⟨p + 1, (lineStart_shift c t true p).mpr h1, by simpa using h2, ?_⟩
        intro q w hq hls
        cases q with
        | zero =>
          rw [List.drop_zero]
          intro hv
          exact absurd ((matchVersionAt_iff _ _).mpr hv) (by simp [hm])
        | succ r =>
          rw [List.drop_succ_cons]
          exact h3 r w (by omega) ((lineStart_shift c t true r).mp hls)

theorem mk_digits_ne_unknown (v : List Char)
    (hdig : v.all Char.isDigit = true) : String.mk v ≠ "unknown" := by
  intro h
  have hv : v = ('u' :: "nknown".data) := by
    have := congrArg String.data h
    simpa using this
  rw [hv, List.all_cons, Bool.and_eq_true] at hdig
  exact absurd hdig.1 (by decide)

/-- Claim C5. For every document `d`, `find_version` returns the literal
string `"unknown"` if and only if no line-start position of `d` matches
`^\*\s*version:\s*(\d+)`; otherwise it returns exactly the digit run
captured by the first (leftmost) matching position. It is a total
function, so it never fails. -/
theorem spec_C5 (d : String) :
    (find_version d = "unknown" ↔
      ∀ p v, LineStartPos d.data true p → ¬ VersionHere (d.data.drop p) v)
  ∧ (∀ p v, LineStartPos d.data true p → VersionHere (d.data.drop p) v →
      (∀ q w, q < p → LineStartPos d.data true q → ¬ VersionHere (d.data.drop q) w) →
      find_version d = String.mk v) := by
  constructor
  · unfold find_version
    cases hs : scanVersion d.data true with
    | none =>
      simp only [true_iff]
      exact (scanVersion_none_iff _ _).mp hs
    | some v0 =>
      obtain ⟨p0, g1, g2, -⟩ := scanVersion_some _ _ _ hs
      have hdig : v0.all Char.isDigit = true := by
        obtain ⟨ws1, ws2, rest, -, -, -, -, hd, -⟩ := g2
        exact hd
      constructor
      · intro h
        exact absurd h (mk_digits_ne_unknown v0 hdig)
      · intro h
        exact absurd g2 (h p0 v0 g1)
  · intro p v h1 h2 h3
    cases hs : scanVersion d.data true with
    | none => exact absurd h2 ((scanVersion_none_iff _ _).mp hs p v h1)
    | some v0 =>
      obtain ⟨p0, g1, g2, g3⟩ := scanVersion_some _ _ _ hs
      have hpp : p = p0 := by
        rcases Nat.lt_trichotomy p p0 with hlt | heq | hgt
        · exact absurd h2 (g3 p v hlt h1)
        · exact heq
        · exact absurd g2 (h3 p0 v0 hgt g1)
      subst hpp
      have hv : v0 = v := by
        have e1 := (matchVersionAt_iff _ _).mpr g2
        have e2 := (matchVersionAt_iff _ _).mpr h2
        exact Option.some.inj (e1.symm.trans e2)
      subst hv
      unfold find_version
      rw [hs]

/-- Closed witness for C5: a document whose first line carries
`* version: 127` (match found at position 0), and a document with no
version line at all. -/
theorem spec_C5_witness :
    find_version ("* version: 127\n") = "127"
  ∧ find_version ("no match here\n") = "unknown" := by
  constructor
  · have h := (spec_C5 ("* version: 127\n")).2 0 (['1', '2', '7'])
      (Or.inl ⟨rfl, rfl⟩)
      ⟨[' '], [' '], ['\n'], by decide, by decide, by decide, by decide,
        by decide, by decide⟩
      (fun q w hq _ => absurd hq (Nat.not_lt_zero q))
    exact h.trans (by decide)
  · exact (spec_C5 ("no match here\n")).1.mpr
      ((scanVersion_none_iff _ _).mp (by decide))

/-- Claim C6. The ESR rewrite (global literal replacement of `"/* ESR"`
by `"// ESR"`) is idempotent; no occurrence of the disabled marker
survives a rewrite; and on the template `"/* ESR enable */"` the result
is `"// ESR enable */"`, which contains the enabled form. -/
theorem spec_C6 :
    (∀ t : String, replaceESR (replaceESR t) = replaceESR t)
  ∧ (∀ t : String, strContains (replaceESR t) ("/* ESR") = false)
  ∧ replaceESR ("/* ESR enable */") = "// ESR enable */"
  ∧ strContains (replaceESR ("/* ESR enable */")) ("// ESR enable */") = true :=
  ⟨replaceESR_idem, replaceESR_no_pat, by decide, by decide⟩

/-! ## Preference-key scan (`main.rs` lines 34-39 and 312-315)

`REGEX_USER_PREF.captures_iter(&user)` yields every non-overlapping
leftmost match of the multi-line regex `^\s*user_pref\((".*?"),` and the
code collects the first capture group (the quoted key, quotes included)
into a `HashSet`. The lazy `".*?"` capture is the shortest quoted run
(of non-newline characters) whose closing quote is immediately followed
by a comma. The set is only consumed through `any`, which is
insensitive to order and duplicates, so it is modelled as a list. -/

/-- The literal `"user_pref("` that opens a preference statement. -/
def prefLit : List Char := ['u', 's', 'e', 'r', '_', 'p', 'r', 'e', 'f', '(']

/-- Scan for the lazy close of `(".*?"),` after an opening quote:
return the shortest content `w` such that `'"' :: w ++ ['"'] ++ [',']`
heads the input, together with the rest after the comma. -/
def keyClose : List Char → Option (List Char × List Char)
  | [] => none
  | c :: r =>
    if c = '"' ∧ r.head? = some ',' then some ([], r.tail)
    else if c = '\n' then none
    else (keyClose r).map (fun p => (c :: p.1, p.2))

/-- Attempt `\s*user_pref\((".*?"),` at one position; on success return
the captured key (quotes included) and the rest after the comma. -/
def tryPrefMatch (s : List Char) : Option (List Char × List Char) :=
  match stripLit prefLit (s.dropWhile isWsChar) with
  | none => none
  | some s2 =>
    match s2 with
    | [] => none
    | c :: s3 =>
      if c = '"' then
        match keyClose s3 with
        | none => none
        | some (w, r) => some ('"' :: (w ++ ['"']), r)
      else none

/-- Fueled leftmost scan over all line-start positions (fuel bounded by
the character count: each step consumes at least one character). -/
def scanKeysF : Nat → List Char → Bool → List (List Char)
  | 0, _, _ => []
  | _ + 1, [], _ => []
  | f + 1, c :: t, atStart =>
    if atStart then
      match tryPrefMatch (c :: t) with
      | some (k, r) => k :: scanKeysF f r false
      | none => scanKeysF f t (c == '\n')
    else scanKeysF f t (c == '\n')

/-- The keys governed by the template: model of `main.rs` lines 312-315. -/
def userPrefKeys (user : String) : List (List Char) :=
  scanKeysF user.data.length user.data true

/-! ## Line splitting (`str::lines`) and re-joining

Rust `str::lines` splits at `"\n"` or `"\r\n"` terminators, the final
terminator being optional: split at every `'\n'`, strip one trailing
`'\r'` from every piece that was terminated by a `'\n'`, and drop the
final piece when it is empty. -/

/-- Split at newlines: first piece plus the pieces after each `'\n'`. -/
def splitNL : List Char → List Char × List (List Char)
  | [] => ([], [])
  | c :: t =>
    let p := splitNL t
    if c = '\n' then ([], p.1 :: p.2) else (c :: p.1, p.2)

/-- Strip one trailing `'\r'` (the `"\r\n"` terminator case). -/
def stripCR : List Char → List Char
  | [] => []
  | c :: t => if t = [] ∧ c = '\r' then [] else c :: stripCR t

/-- Assemble the line list: every `'\n'`-terminated piece loses one
trailing `'\r'`; the unterminated final piece is kept as-is unless it
is empty. -/
def linesCore (cur : List Char) : List (List Char) → List (List Char)
  | [] => if cur = [] then [] else [cur]
  | next :: rest => stripCR cur :: linesCore next rest

/-- Model of Rust `str::lines` on character lists. -/
def rustLines (s : List Char) : List (List Char) :=
  linesCore (splitNL s).1 (splitNL s).2

/-- Model of `Vec::join("\n")`. -/
def joinNL : List (List Char) → List Char
  | [] => []
  | [l] => l
  | l :: ls => l ++ '\n' :: joinNL ls

/-- The PrefsClean reconciliation (`main.rs` lines 312-328): collect the
template keys, partition the store lines by raw substring
containment of any key, rejoin the kept lines with `"\n"` plus a
trailing `"\n"`, and count the discarded lines. -/
def cleanPrefs (user prefs : String) : String × Nat :=
  let keyList := userPrefKeys user
  let parts := (rustLines prefs.data).partition
    (fun l => keyList.any (fun k => containsSub k l))
  (String.mk (joinNL parts.2 ++ ['\n']), parts.1.length)

theorem stripCR_cases (l : List Char) : stripCR l = l ∨ l = stripCR l ++ ['\r'] := by
  induction l with
  | nil => exact Or.inl rfl
  | cons c t ih =>
    by_cases h : t = [] ∧ c = '\r'
    · obtain ⟨rfl, rfl⟩ := h
      exact Or.inr rfl
    · rw [stripCR, if_neg h]
      rcases ih with h' | h'
      · rw [h']
        exact Or.inl rfl
      · refine Or.inr ?_
        conv_lhs => rw [h']
        simp

theorem containsSub_stripCR (k l : List Char)
    (h : containsSub k (stripCR l) = true) : containsSub k l = true := by
  rcases stripCR_cases l with h' | h'
  · rwa [h'] at h
  · rw [h']
    exact containsSub_append_right _ _ _ h

theorem mem_of_mem_stripCR (a : Char) (l : List Char) (h : a ∈ stripCR l) :
    a ∈ l := by
  rcases stripCR_cases l with h' | h'
  · rwa [h'] at h
  · rw [h']
    exact List.mem_append_left _ h

theorem splitNL_no_nl (s : List Char) :
    '\n' ∉ (splitNL s).1 ∧ ∀ l ∈ (splitNL s).2, '\n' ∉ l := by
  induction s with
  | nil => simp [splitNL]
  | cons c t ih =>
    by_cases hc : c = '\n'
    · subst hc
      rw [splitNL]
      simp only [if_pos rfl]
      refine ⟨by simp, ?_⟩
      intro l hl
      rcases List.mem_cons.mp hl with rfl | hl
      · exact ih.1
      · exact ih.2 l hl
    · rw [splitNL]
      simp only [if_neg hc]
      refine ⟨?_, ih.2⟩
      intro hmem
      rcases List.mem_cons.mp hmem with h | h
      · exact hc h.symm
      · exact ih.1 h

theorem linesCore_no_nl (cur : List Char) (ps : List (List Char))
    (h1 : '\n' ∉ cur) (h2 : ∀ l ∈ ps, '\n' ∉ l) :
    ∀ l ∈ linesCore cur ps, '\n' ∉ l := by
  induction ps generalizing cur with
  | nil =>
    intro l hl
    rw [linesCore] at hl
    split at hl
    · simp at hl
    · rcases List.mem_singleton.mp hl with rfl
      exact h1
  | cons next rest ih =>
    intro l hl
    rw [linesCore] at hl
    rcases List.mem_cons.mp hl with rfl | hl
    · exact fun hn => h1 (mem_of_mem_stripCR _ _ hn)
    · exact ih next (h2 next (by simp)) (fun x hx => h2 x (by simp [hx])) l hl

theorem rustLines_no_nl (s : List Char) : ∀ l ∈ rustLines s, '\n' ∉ l :=
  linesCore_no_nl _ _ (splitNL_no_nl s).1 (splitNL_no_nl s).2

theorem splitNL_append_nl (l r : List Char) (h : '\n' ∉ l) :
    splitNL (l ++ '\n' :: r) = (l, (splitNL r).1 :: (splitNL r).2) := by
  induction l with
  | nil => simp [splitNL]
  | cons c t ih =>
    have hc : ¬ c = '\n' := fun hc => h (by simp [hc])
    rw [List.cons_append, splitNL]
    simp only [if_neg hc]
    rw [ih (fun hm => h (by simp [hm]))]

theorem rustLines_joinNL (l : List Char) (ls : List (List Char))
    (h1 : '\n' ∉ l) (h2 : ∀ x ∈ ls, '\n' ∉ x) :
    rustLines (joinNL (l :: ls) ++ ['\n']) = stripCR l :: ls.map stripCR := by
  induction ls generalizing l with
  | nil =>
    show rustLines (l ++ '\n' :: []) = [stripCR l]
    unfold rustLines
    rw [splitNL_append_nl l [] h1]
    simp [linesCore, splitNL]
  | cons m ls ih =>
    have hj : joinNL (l :: m :: ls) ++ ['\n']
        = l ++ '\n' :: (joinNL (m :: ls) ++ ['\n']) := by
      show (l ++ '\n' :: joinNL (m :: ls)) ++ ['\n'] = _
      simp
    rw [hj]
    unfold rustLines
    rw [splitNL_append_nl l _ h1]
    show stripCR l :: linesCore _ _ = _
    have := ih m (h2 m (by simp)) (fun x hx => h2 x (by simp [hx]))
    unfold rustLines at this
    rw [this]
    simp

theorem tryPrefMatch_ne_nil (s k r : List Char)
    (h : tryPrefMatch s = some (k, r)) : k ≠ [] := by
  unfold tryPrefMatch at h
  split at h
  · exact absurd h (by simp)
  · split at h
    · exact absurd h (by simp)
    · split at h
      · split at h
        · exact absurd h (by simp)
        · rename_i w r0 _
          have hk : '"' :: (w ++ ['"']) = k := (Prod.mk.inj (Option.some.inj h)).1
          rw [← hk]
          exact List.cons_ne_nil _ _
      · exact absurd h (by simp)

theorem scanKeysF_ne_nil (f : Nat) (s : List Char) (a : Bool) (k : List Char)
    (hk : k ∈ scanKeysF f s a) : k ≠ [] := by
  induction f generalizing s a with
  | zero => simp [scanKeysF] at hk
  | succ f ih =>
    cases s with
    | nil => simp [scanKeysF] at hk
    | cons c t =>
      cases a with
      | false =>
        rw [scanKeysF] at hk
        simp only [Bool.false_eq_true, if_false] at hk
        exact ih _ _ hk
      | true =>
        rw [scanKeysF] at hk
        simp only [if_true] at hk
        cases htp : tryPrefMatch (c :: t) with
        | none =>
          rw [htp] at hk
          exact ih _ _ hk
        | some p =>
          rw [htp] at hk
          rcases List.mem_cons.mp hk with rfl | hk
          · exact tryPrefMatch_ne_nil (c :: t) p.1 p.2 (by rw [htp])
          · exact ih _ _ hk

theorem userPrefKeys_ne_nil (user : String) (k : List Char)
    (hk : k ∈ userPrefKeys user) : k ≠ [] :=
  scanKeysF_ne_nil _ _ _ _ hk

/-- Closed form of the PrefsClean reconciliation: the kept document is
the filtered lines joined by `"\n"` plus a trailing `"\n"`, and the
removed count is the number of lines containing some template key. -/
theorem cleanPrefs_eq (user prefs : String) :
    cleanPrefs user prefs
      = (String.mk (joinNL ((rustLines prefs.data).filter
            (fun l => !(userPrefKeys user).any (fun k => containsSub k l))) ++ ['\n']),
         ((rustLines prefs.data).filter
            (fun l => (userPrefKeys user).any (fun k => containsSub k l))).length) := by
  simp only [cleanPrefs, List.partition_eq_filter_filter, Function.comp]
  rfl

/-- Scenario inputs of the spec: a template declaring only the key
`"a"`, and a store holding one `a` line and one `b` line. -/
def tplOnlyA : String := "user_pref(\"a\", 1);\n"

/-- The two-line store of the scenario. -/
def storeAB : String := "user_pref(\"a\", 1);\nuser_pref(\"b\", 2);\n"

/-- The expected kept store of the scenario. -/
def storeOnlyB : String := "user_pref(\"b\", 2);\n"

/-- Claim C1. `clean(t, s)` discards exactly the store lines containing
some captured template key as a raw substring (first conjunct gives the
declarative reading of the Boolean substring test); every other line is
kept in original relative order (the filtered line list), the removed
count is the number of discarded lines, and the concrete scenario of the spec
evaluates as stated. -/
theorem spec_C1 :
    (∀ k l : List Char, containsSub k l = true ↔ ∃ a b, l = a ++ k ++ b)
  ∧ (∀ user prefs : String,
        (cleanPrefs user prefs).1 = String.mk (joinNL ((rustLines prefs.data).filter
            (fun l => !(userPrefKeys user).any (fun k => containsSub k l))) ++ ['\n'])
      ∧ (cleanPrefs user prefs).2
          = (rustLines prefs.data).countP
              (fun l => (userPrefKeys user).any (fun k => containsSub k l)))
  ∧ cleanPrefs tplOnlyA storeAB = (storeOnlyB, 1)
  ∧ userPrefKeys tplOnlyA = [['"', 'a', '"']] := by
  refine ⟨containsSub_iff, ?_, by decide, by decide⟩
  intro user prefs
  rw [cleanPrefs_eq]
  exact ⟨rfl, by rw [List.countP_eq_length_filter]⟩

/-- Claim C4. Prefs reconciliation is idempotent: cleaning the kept output
of a clean against the same template removes nothing. -/
theorem spec_C4 (user prefs : String) :
    (cleanPrefs user (cleanPrefs user prefs).1).2 = 0 := by
  have hinner : (cleanPrefs user prefs).1
      = String.mk (joinNL ((rustLines prefs.data).filter
          (fun l => !(userPrefKeys user).any (fun k => containsSub k l))) ++ ['\n']) := by
    rw [cleanPrefs_eq]
  rw [hinner, cleanPrefs_eq]
  simp only
  rw [List.length_eq_zero, List.filter_eq_nil_iff]
  intro l hl
  cases hk : (rustLines prefs.data).filter
      (fun l => !(userPrefKeys user).any (fun k => containsSub k l)) with
  | nil =>
    rw [hk] at hl
    have hone : rustLines (joinNL ([] : List (List Char)) ++ ['\n']) = [[]] := by decide
    rw [hone] at hl
    rcases List.mem_singleton.mp hl with rfl
    simp only [List.any_eq_true, not_exists, not_and]
    intro k hkmem hcs
    have : k = [] := by
      simpa [containsSub, List.isEmpty_iff] using hcs
    exact userPrefKeys_ne_nil user k hkmem this
  | cons l0 kept =>
    rw [hk] at hl
    have hsub : ∀ x ∈ l0 :: kept, x ∈ rustLines prefs.data
        ∧ (!(userPrefKeys user).any (fun k => containsSub k x)) = true := by
      intro x hx
      rw [← hk] at hx
      exact ⟨(List.mem_filter.mp hx).1, (List.mem_filter.mp hx).2⟩
    have hnl : '\n' ∉ l0 := rustLines_no_nl _ _ (hsub l0 (by simp)).1
    have hnl2 : ∀ x ∈ kept, '\n' ∉ x := fun x hx =>
      rustLines_no_nl _ _ (hsub x (by simp [hx])).1
    rw [rustLines_joinNL l0 kept hnl hnl2] at hl
    have hmem : ∃ x, (x ∈ l0 :: kept) ∧ l = stripCR x := by
      rcases List.mem_cons.mp hl with rfl | hl
      · exact ⟨l0, by simp, rfl⟩
      · obtain ⟨x, hx1, hx2⟩ := List.mem_map.mp hl
        exact ⟨x, by simp [hx1], hx2.symm⟩
    obtain ⟨x, hx, rfl⟩ := hmem
    simp only [List.any_eq_true, not_exists, not_and]
    intro k hkmem hcs
    have hcx : containsSub k x = true := containsSub_stripCR k x hcs
    have hany := (hsub x hx).2
    simp only [Bool.not_eq_true', List.any_eq_false] at hany
    exact absurd hcx (hany k hkmem)

/-- Claim C9. The kept output of `clean` is the kept lines joined with
`"\n"` plus exactly one appended `"\n"`; in particular an empty store,
or a store all of whose lines are discarded, produces the one-character
document `"\n"`, not the empty document. -/
theorem spec_C9 :
    (∀ user prefs : String, (cleanPrefs user prefs).1
        = String.mk (joinNL ((rustLines prefs.data).filter
            (fun l => !(userPrefKeys user).any (fun k => containsSub k l))) ++ ['\n']))
  ∧ (∀ user : String, (cleanPrefs user ("")).1 = "\n")
  ∧ (∀ user prefs : String,
      (rustLines prefs.data).all
          (fun l => (userPrefKeys user).any (fun k => containsSub k l)) = true →
      (cleanPrefs user prefs).1 = "\n") := by
  refine ⟨?_, ?_, ?_⟩
  · intro user prefs
    rw [cleanPrefs_eq]
  · intro user
    rw [cleanPrefs_eq]
    dsimp only
    have h0 : rustLines ("" : String).data = [] := rfl
    rw [h0]
    simp only [List.filter_nil]
    decide
  · intro user prefs h
    rw [cleanPrefs_eq]
    have hnil : (rustLines prefs.data).filter
        (fun l => !(userPrefKeys user).any (fun k => containsSub k l)) = [] := by
      rw [List.filter_eq_nil_iff]
      intro a ha
      simp [List.all_eq_true.mp h a ha]
    dsimp only
    rw [hnil]
    decide

/-- Closed witness for C9: cleaning the store equal to the scenario template
against itself discards every line and writes the document `"\n"`. -/
theorem spec_C9_witness :
    (rustLines tplOnlyA.data).all
        (fun l => (userPrefKeys tplOnlyA).any (fun k => containsSub k l)) = true
  ∧ (cleanPrefs tplOnlyA tplOnlyA).1 = "\n" :=
  ⟨by decide, spec_C9.2.2 tplOnlyA tplOnlyA (by decide)⟩

/-! ## Template merge (Update arm, `main.rs` lines 252-260)

```text
if *esr { new_user = new_user.replace("/* ESR", "// ESR"); }
if !no_overrides {
    let overrides = read_string_with_default(profile.join("user-overrides.js"))?;
    new_user += "\n";
    new_user += &overrides;
}
```

The override block is appended after a single `"\n"`; the code emits no
sentinel marker line of any kind. -/

/-- Model of the merge performed by the Update arm: ESR rewrite when the
flag is set, then optional append of `"\n"` plus the override content. -/
def mergeDoc (template : String) (esr : Bool) (overrides : Option String) : String :=
  let t1 := if esr then replaceESR template else template
  match overrides with
  | some o => t1 ++ "\n" ++ o
  | none => t1

/-- Boolean suffix test on character lists. -/
def isSuf (suf s : List Char) : Bool := isPre suf.reverse s.reverse

/-- Model of `str::ends_with` on `String`s. -/
def strEndsWith (s suf : String) : Bool := isSuf suf.data s.data

theorem isPre_refl (l : List Char) : isPre l l = true :=
  (isPre_iff l l).mpr ⟨[], (List.append_nil l).symm⟩

theorem isSuf_append (pre suf : List Char) : isSuf suf (pre ++ suf) = true := by
  unfold isSuf
  rw [List.reverse_append]
  exact isPre_append _ _ _ (isPre_refl suf.reverse)

/-- The marker line the spec describes; it appears nowhere in the code. -/
def markerC2 : String := "/** START: arkencrab overrides */"

/-- Counterexample to C2: with template `"x"` and overrides `"y"` the
merged document is `"x\ny"`, which does not end with a managed-region
marker followed by a blank line and the override content. -/
theorem spec_C2_counterexample :
    mergeDoc ("x") false (some ("y")) = "x\ny"
  ∧ strEndsWith (mergeDoc ("x") false (some ("y"))) (markerC2 ++ "\n\n" ++ "y")
      = false := by
  constructor <;> decide

/-- Claim C2 (amended). The merged document with requested overrides is the
(possibly ESR-rewritten) template followed by a single `"\n"` and the
override content verbatim — so it ends with `"\n" ++ o`; no managed
region marker line is emitted. -/
theorem spec_C2 (t o : String) :
    mergeDoc t false (some o) = t ++ ("\n" ++ o)
  ∧ strEndsWith (mergeDoc t false (some o)) ("\n" ++ o) = true := by
  have hm : mergeDoc t false (some o) = t ++ ("\n" ++ o) := by
    show t ++ "\n" ++ o = t ++ ("\n" ++ o)
    exact String.append_assoc t ("\n") o
  refine ⟨hm, ?_⟩
  rw [hm]
  unfold strEndsWith
  rw [String.data_append]
  exact isSuf_append _ _

/-! ## Update status report (`main.rs` lines 268-287)

The `println!` prints `updated arkenfox v<old> -> v<new><suffix>` where
the suffix is `" (unchanged)"` or `" (changed)"` only when the two
version tokens are equal (decided by byte equality of the documents),
and the empty string when the version tokens differ. Colorization is
stripped: it is presentation only. -/

/-- The changed/unchanged suffix of the Update status line. -/
def updateStatusSuffix (existing_version this_version existing_user new_user : String) :
    String :=
  if existing_version = this_version then
    if existing_user = new_user then (" (unchanged)") else (" (changed)")
  else ("")

/-- The scenario template, declaring version 128. -/
def tplC7 : String := "* version: 128\nuser_pref(\"a\", 1);\n"

/-- The prior document of the scenario, declaring version 127. -/
def oldC7 : String := "* version: 127\nuser_pref(\"a\", 1);\n"

/-- Counterexample to C7: in the scenario of the spec (versions 127 and 128)
the reported status suffix is empty — no `" (changed)"` flag is printed
when the version tokens differ. -/
theorem spec_C7_counterexample :
    updateStatusSuffix (find_version oldC7) (find_version tplC7) oldC7
        (mergeDoc tplC7 false none) = ""
  ∧ ("" : String) ≠ " (changed)" := by
  constructor <;> decide

/-- Claim C7 (amended). In the scenario the merged document equals the
template verbatim and the reported versions are 127 -> 128, but no
changed/unchanged status is reported: the suffix is empty whenever the
version tokens differ, and only when they are equal is the status
decided by byte-for-byte equality of the post-merge document with the
prior document. -/
theorem spec_C7 :
    mergeDoc tplC7 false none = tplC7
  ∧ find_version oldC7 = "127"
  ∧ find_version tplC7 = "128"
  ∧ updateStatusSuffix (find_version oldC7) (find_version tplC7) oldC7
      (mergeDoc tplC7 false none) = ""
  ∧ (∀ v u n : String,
      updateStatusSuffix v v u n = if u = n then (" (unchanged)") else (" (changed)"))
  ∧ (∀ v w u n : String, v ≠ w → updateStatusSuffix v w u n = "") := by
  refine ⟨by decide, by decide, by decide, by decide, ?_, ?_⟩
  · intro v u n
    simp [updateStatusSuffix]
  · intro v w u n h
    simp [updateStatusSuffix, h]

/-- Closed witness for C7: the version tokens of the scenario differ, and the
suffix is empty there. -/
theorem spec_C7_witness :
    ("127" : String) ≠ "128"
  ∧ updateStatusSuffix ("127") ("128") oldC7 tplC7 = "" :=
  ⟨by decide, spec_C7.2.2.2.2.2 ("127") ("128") oldC7 tplC7 (by decide)⟩

/-! ## Absent-file reads (`read_string_with_default`, `main.rs` 125-131)

```text
match fs::read_to_string(path) {
    Ok(s) => Ok(s),
    Err(err) if err.kind() == io::ErrorKind::NotFound => Ok(String::new()),
    Err(err) => Err(err.into()),
}
```

The outcome of the underlying `fs::read_to_string` call is embedded as
an `Except` value carrying the error kind. All three expected input
files (`user.js`, `user-overrides.js`, `prefs.js`) are read through this
one function. -/

/-- Filesystem error kinds distinguished by the code. -/
inductive FsError where
  | notFound
  | permissionDenied
  | other
deriving DecidableEq

/-- Model of `read_string_with_default`. -/
def read_string_with_default (r : Except FsError String) : Except FsError String :=
  match r with
  | .ok s => .ok s
  | .error e => if e = FsError.notFound then .ok ("") else .error e

/-- Claim C8. A missing file yields the empty document and is never an
error; a successful read is passed through; every other read error is
propagated unchanged. -/
theorem spec_C8 :
    read_string_with_default (.error FsError.notFound) = .ok ("")
  ∧ (∀ s : String, read_string_with_default (.ok s) = .ok s)
  ∧ (∀ e : FsError, e ≠ FsError.notFound →
      read_string_with_default (.error e) = .error e) := by
  refine ⟨rfl, fun s => rfl, ?_⟩
  intro e he
  simp [read_string_with_default, he]

/-- Closed witness for C8: a permission error propagates. -/
theorem spec_C8_witness :
    FsError.permissionDenied ≠ FsError.notFound
  ∧ read_string_with_default (.error FsError.permissionDenied)
      = .error FsError.permissionDenied :=
  ⟨by decide, spec_C8.2.2 FsError.permissionDenied (by decide)⟩

/-! ## Filesystem effects of the Update arm (`main.rs` lines 217-288)

The filesystem under the profile directory is a map from relative path
to optional file content; `create_dir_all` has no effect on that map.
The order of effects in the source is: read `user.js` (absent ⇒ empty),
write the timestamped backup, fetch the remote template (the fallible
HTTP exchange is the `Option String` parameter: `none` is a transport
error or non-2xx status, which aborts the operation right there), then
merge and write `user.js`. The returned flag records whether the final
write was reached. -/

/-- A profile directory: relative path to optional content. -/
def FS : Type := String → Option String

/-- Whole-file write. -/
def fsWrite (fs : FS) (path content : String) : FS :=
  fun q => if q = path then some content else fs q

/-- Read with the absent-file convention (`read_string_with_default`
restricted to the absent/present outcomes the map can express). -/
def readD (fs : FS) (path : String) : String := (fs path).getD ("")

/-- The backup artifact path for timestamp `ts`. -/
def backupPath (ts : String) : String := "userjs_backups/user.js.backup." ++ ts

/-- One Update invocation over the profile filesystem. -/
def updateRun (fs : FS) (fetch : Option String) (esr no_overrides : Bool)
    (ts : String) : FS × Bool :=
  let existing_user := readD fs ("user.js")
  let fs1 := fsWrite fs (backupPath ts) existing_user
  match fetch with
  | none => (fs1, false)
  | some body =>
    let overrides := if no_overrides then none
      else some (readD fs1 ("user-overrides.js"))
    let new_user := mergeDoc body esr overrides
    (fsWrite fs1 ("user.js") new_user, true)

/-- The profile directory with no files at all. -/
def emptyFS : FS := fun _ => none

theorem backupPath_ne (ts : String) : backupPath ts ≠ "user.js" := by
  intro h
  have hl := congrArg String.length h
  rw [backupPath, String.length_append] at hl
  have h30 : ("userjs_backups/user.js.backup." : String).length = 30 := by decide
  have h7 : ("user.js" : String).length = 7 := by decide
  rw [h30, h7] at hl
  omega

/-- Counterexample to C3: on an empty profile, an Update whose fetch
fails still creates the backup artifact — a file under the profile
directory exists after the failure that did not exist before. -/
theorem spec_C3_counterexample :
    (updateRun emptyFS none false false ("T")).1 (backupPath ("T")) = some ("")
  ∧ emptyFS (backupPath ("T")) = none := by
  constructor <;> decide

/-- Claim C3 (amended). If the fetch fails, the operation aborts before
`user.js` is modified: the final write is not reached, `user.js` and
every other path except the backup artifact are untouched — but the
backup artifact has already been written with the prior `user.js`
content. -/
theorem spec_C3 (fs : FS) (esr no_overrides : Bool) (ts : String) :
    (updateRun fs none esr no_overrides ts).2 = false
  ∧ (updateRun fs none esr no_overrides ts).1 ("user.js") = fs ("user.js")
  ∧ (updateRun fs none esr no_overrides ts).1 (backupPath ts)
      = some (readD fs ("user.js"))
  ∧ (∀ p : String, p ≠ backupPath ts →
      (updateRun fs none esr no_overrides ts).1 p = fs p) := by
  refine ⟨rfl, ?_, ?_, ?_⟩
  · show fsWrite fs (backupPath ts) (readD fs ("user.js")) ("user.js") = fs ("user.js")
    unfold fsWrite
    rw [if_neg (fun h => backupPath_ne ts h.symm)]
  · show fsWrite fs (backupPath ts) (readD fs ("user.js")) (backupPath ts) = _
    unfold fsWrite
    rw [if_pos rfl]
  · intro p hp
    show fsWrite fs (backupPath ts) (readD fs ("user.js")) p = fs p
    unfold fsWrite
    rw [if_neg hp]

/-- Closed witness for C3 (amended): on the empty profile, a failed
fetch leaves `user.js` untouched. -/
theorem spec_C3_witness :
    ("user.js" : String) ≠ backupPath ("T")
  ∧ (updateRun emptyFS none false false ("T")).1 ("user.js")
      = emptyFS ("user.js") :=
  ⟨by decide, (spec_C3 emptyFS false false ("T")).2.2.2 ("user.js") (by decide)⟩

/-- Claim C10. Every Update invocation — fetch succeeding or failing —
leaves the backup artifact holding the pre-update `user.js` content
byte-for-byte, the empty string when `user.js` was absent. -/
theorem spec_C10 (fs : FS) (fetch : Option String) (esr no_overrides : Bool)
    (ts : String) :
    (updateRun fs fetch esr no_overrides ts).1 (backupPath ts)
      = some (readD fs ("user.js"))
  ∧ (fs ("user.js") = none →
      (updateRun fs fetch esr no_overrides ts).1 (backupPath ts) = some ("")) := by
  have hhit : (updateRun fs fetch esr no_overrides ts).1 (backupPath ts)
      = some (readD fs ("user.js")) := by
    cases fetch with
    | none =>
      show fsWrite fs (backupPath ts) (readD fs ("user.js")) (backupPath ts) = _
      unfold fsWrite
      rw [if_pos rfl]
    | some body =>
      simp only [updateRun, fsWrite]
      rw [if_neg (backupPath_ne ts)]
      simp
  refine ⟨hhit, ?_⟩
  intro habs
  rw [hhit]
  unfold readD
  rw [habs]
  rfl

/-- Closed witness for C10: an absent `user.js` is backed up as the
empty document, also when the fetch succeeds. -/
theorem spec_C10_witness :
    emptyFS ("user.js") = none
  ∧ (updateRun emptyFS (some ("body")) false false ("T")).1 (backupPath ("T"))
      = some ("") :=
  ⟨rfl, (spec_C10 emptyFS (some ("body")) false false ("T")).2 rfl⟩

end Arkencrab
